import Mathlib

/-!
Verification of the `queue.c` double-ended queue (circular doubly-linked list
of C strings with a sentinel head).

The development embeds the program at two levels:

* a *sequence level*, where a queue state is the `List String` of element
  texts in traversal order from the sentinel (`Option` models a possibly
  NULL queue pointer), and each operation is translated from the body of the
  corresponding C function;
* a *pointer level* (`namespace Ring` below), where a heap assigns `next` and
  `prev` fields to node ids, used for the ring-invariant and unlink-state
  claims.

C strings are embedded as Lean `String`; `strcmp(a,b) < 0` / `== 0` become
`a < b` / `a = b` in `String`'s lexicographic linear order.
-/

namespace Queue

/-- The `strcmp(a, b) < 0`, embedded as the lexicographic byte-wise comparison on
the character lists of the two strings. -/
def strLt : List Char → List Char → Bool
  | [], [] => false
  | [], _ :: _ => true
  | _ :: _, [] => false
  | a :: as, b :: bs => if a < b then true else if b < a then false else strLt as bs

/-- The `strcmp(s, t) < 0` on whole strings. -/
def strLtS (s t : String) : Bool := strLt s.data t.data

/-- The embedded `strcmp < 0` coincides with the list order underlying
`String`'s linear order. -/
theorem strLt_iff (as bs : List Char) : strLt as bs = true ↔ as < bs := by
  induction as generalizing bs with
  | nil =>
    cases bs with
    | nil =>
      simp only [strLt]
      exact iff_of_false (by simp) (fun h => by cases h)
    | cons b bs =>
      simp only [strLt]
      exact iff_of_true trivial List.Lex.nil
  | cons a as ih =>
    cases bs with
    | nil =>
      simp only [strLt]
      exact iff_of_false (by simp) (fun h => by cases h)
    | cons b bs =>
      simp only [strLt]
      by_cases hab : a < b
      · rw [if_pos hab]
        exact iff_of_true rfl (List.Lex.rel hab)
      · rw [if_neg hab]
        by_cases hba : b < a
        · rw [if_pos hba]
          refine iff_of_false (by simp) (fun h => ?_)
          cases h with
          | cons h => exact absurd hba (lt_irrefl a)
          | rel h => exact hab h
        · rw [if_neg hba]
          have hab2 : a = b := le_antisymm (le_of_not_lt hba) (le_of_not_lt hab)
          subst hab2
          rw [ih bs]
          constructor
          · exact fun h => List.Lex.cons h
          · intro h
            cases h with
            | cons h => exact h
            | rel h => exact absurd h (lt_irrefl a)

/-- The `strcmp(s, t) < 0` coincides with `String`'s order. -/
theorem strLtS_iff (s t : String) : strLtS s t = true ↔ s < t := by
  rw [String.lt_iff_toList_lt]
  exact strLt_iff s.data t.data

/-- The merge loop of `mergeTwoLists` (queue.c:280-296), fuel-indexed so the
definition is structurally recursive.  Each iteration compares the values of
the two chain heads with `strcmp`; the left node is taken only when it is
strictly smaller (`< 0`), otherwise — including ties — the right node is
taken.  When either chain runs out, the pointer-OR trick appends the other
chain whole.  `val` is the `list_entry(...)->value` field access.  With
`fuel ≥ l.length + r.length` the fuel case is never reached. -/
def mergeF {α : Type} (val : α → String) : Nat → List α → List α → List α
  | 0, l, r => l ++ r
  | _ + 1, [], r => r
  | _ + 1, a :: l, [] => a :: l
  | fuel + 1, a :: l, b :: r =>
      if strLtS (val a) (val b) then a :: mergeF val fuel l (b :: r)
      else b :: mergeF val fuel (a :: l) r

/-- The `mergeTwoLists` (queue.c:280-296) applied to null-terminated chains given
as lists: the fuel `l.length + r.length` bounds the number of loop
iterations, so this computes exactly the C merge. -/
def mergeTwoLists {α : Type} (val : α → String) (l r : List α) : List α :=
  mergeF val (l.length + r.length) l r

/-- The recursive `mergesort` (queue.c:298-316), fuel-indexed.  The guard
`!head || !head->next` is `l.length ≤ 1`.  The fast/slow split leaves the
first `⌊n/2⌋` nodes in the left chain (`slow` advances once per iteration and
the loop runs `⌊n/2⌋` times), i.e. `take (n/2)` / `drop (n/2)`.  With
`fuel ≥ l.length` the fuel case is never reached. -/
def mergesortF {α : Type} (val : α → String) : Nat → List α → List α
  | 0, l => l
  | fuel + 1, l =>
      if l.length ≤ 1 then l
      else
        mergeTwoLists val (mergesortF val fuel (l.take (l.length / 2)))
          (mergesortF val fuel (l.drop (l.length / 2)))

/-- The `mergesort` (queue.c:298-316) on a chain of length `n`: recursion depth is
bounded by `n`, so fuel `n` suffices. -/
def mergesort {α : Type} (val : α → String) (l : List α) : List α :=
  mergesortF val l.length l

/-- The body of `q_sort` (queue.c:318-334) at sequence level: the
empty/singular guard returns the queue unchanged; otherwise the ring is
broken into a chain, `mergesort`ed, and re-closed (re-closing does not change
traversal order, so the resulting sequence is the mergesort output). -/
def q_sortList (l : List String) : List String :=
  match l with
  | [] => l
  | [_] => l
  | _ => mergesort (fun s => s) l

/-- The `q_sort` including the NULL-queue guard (queue.c:320). -/
def q_sort : Option (List String) → Option (List String)
  | none => none
  | some l => some (q_sortList l)

/-- The `list_for_each_entry_safe` loop of `q_delete_dup` (queue.c:229-236):
`slow` is the current element, `fast` its successor saved before the body;
when the current element is not last (`slow->list.next != head`) and its
value equals the successor's, the *current* element is deleted.  Iteration
always continues at the saved successor. -/
def dedupPass : List String → List String
  | a :: b :: rest => if a = b then dedupPass (b :: rest) else a :: dedupPass (b :: rest)
  | l => l

/-- The `q_delete_dup` (queue.c:222-239): `false` on a NULL queue, otherwise sorts
first (queue.c:227) and runs the adjacent-duplicate pass, returning `true`. -/
def q_delete_dup : Option (List String) → Bool × Option (List String)
  | none => (false, none)
  | some l => (true, some (dedupPass (q_sortList l)))

/-- The fast/slow loop of `q_delete_mid` (queue.c:198-204), modelled on the
suffix of the traversal that starts at `fast_ptr`: `fast_ptr == head` is the
empty suffix, `fast_ptr == head->prev` the one-element suffix, and each
iteration advances `fast` two nodes (drops two of the suffix) and `slow` one
index. Returns the final index of `slow_ptr` counted from the first element. -/
def midLoop {α : Type} : List α → Nat → Nat
  | [], slow => slow
  | [_], slow => slow
  | _ :: _ :: rest, slow => midLoop rest (slow + 1)

/-- The `q_delete_mid` (queue.c:193-211): `false` on NULL or empty queue;
otherwise the element at the index computed by the fast/slow loop (both
cursors start at `head->next`, i.e. index 0) is unlinked and released. -/
def q_delete_mid : Option (List String) → Bool × Option (List String)
  | none => (false, none)
  | some [] => (false, some [])
  | some (a :: l) => (true, some ((a :: l).eraseIdx (midLoop (a :: l) 0)))

/-- The `list_for_each_safe` loop of `q_reverse` (queue.c:269-272): nodes are
visited in original traversal order (the safe cursor is saved before each
move) and each visited node is re-spliced immediately after the sentinel, so
`acc` is the already-processed prefix in reversed order and `rest` the
untouched suffix; the ring at each step is `acc ++ rest`. -/
def reverseLoop {α : Type} : List α → List α → List α
  | [], acc => acc
  | x :: rest, acc => reverseLoop rest (x :: acc)

/-- The `q_reverse` (queue.c:264-273) at sequence level.  The NULL/empty guard
(queue.c:266) returns an unchanged queue, which coincides with the loop doing
nothing on an empty traversal. -/
def q_reverseList (l : List String) : List String :=
  reverseLoop l []

/-- The loop of `q_swap` (queue.c:249-254): while at least two unprocessed
nodes remain, the first (`node`) is unlinked and re-linked immediately after
the second (`next_node`), swapping the pair; the cursor then continues at the
node after the pair.  A final unpaired node is left in place. -/
def swapPairs {α : Type} : List α → List α
  | a :: b :: rest => b :: a :: swapPairs rest
  | l => l

/-! ## Output-buffer model for `q_remove_head` / `q_remove_tail`

`sp` is modelled by which byte indices the code writes (`spWritten`) and what
byte each written index receives (`spByte`).  `bufsize` is a `size_t`, so
`bufsize - 1` is computed modulo `2^64`. -/

/-- The `size_t` modulus. -/
def sizeW : Nat := 2 ^ 64

/-- The `bufsize - 1` in `size_t` arithmetic (queue.c:130-131): for `bufsize = 0`
this underflows to `2^64 - 1`. -/
def bufLimit (bufsize : Nat) : Nat := (bufsize + (sizeW - 1)) % sizeW

/-- Byte indices of `sp` written by the copy code (queue.c:130-131):
`strncpy(sp, value, bufsize - 1)` writes indices `0 .. bufLimit - 1` (it
always writes exactly its length argument, zero-padding past the source), and
`sp[bufsize - 1] = '\0'` writes index `bufLimit`. -/
def spWritten (bufsize i : Nat) : Bool := i ≤ bufLimit bufsize

/-- The byte stored at written index `i`: a text character for
`i < min (bufLimit bufsize) (length value)`, a null byte otherwise
(`strncpy` zero padding and the explicit terminator). -/
def spByte (v : List Char) (bufsize i : Nat) : Char :=
  if i < bufLimit bufsize ∧ i < v.length then v.getD i (Char.ofNat 0)
  else Char.ofNat 0

/-- Result of a remove operation: the removed element's text (`none` when the
queue was NULL or empty), the remaining queue, and the output-buffer write
trace. -/
structure RemoveResult where
  removed : Option String
  queue : Option (List String)
  written : Nat → Bool
  byteAt : Nat → Char

/-- Write trace of a remove that did not touch `sp`. -/
def noWrite : Nat → Bool := fun _ => false

/-- All-zero byte function, for a remove that did not touch `sp`. -/
def nulByte : Nat → Char := fun _ => Char.ofNat 0

/-- The `q_remove_head` (queue.c:120-135): NULL or empty queue returns NULL and
writes nothing; otherwise the first element is unlinked and, when `sp` is
non-NULL, its text is copied into `sp` as modelled by `spWritten`/`spByte`. -/
def q_remove_head (q : Option (List String)) (spNonNull : Bool) (bufsize : Nat) :
    RemoveResult :=
  match q with
  | none => ⟨none, none, noWrite, nulByte⟩
  | some [] => ⟨none, some [], noWrite, nulByte⟩
  | some (h :: t) =>
      if spNonNull then ⟨some h, some t, spWritten bufsize, spByte h.data bufsize⟩
      else ⟨some h, some t, noWrite, nulByte⟩

/-- The `q_remove_tail` (queue.c:141-156): as `q_remove_head` but unlinking
`list_last_entry`, i.e. the final element of the traversal. -/
def q_remove_tail (q : Option (List String)) (spNonNull : Bool) (bufsize : Nat) :
    RemoveResult :=
  match q with
  | none => ⟨none, none, noWrite, nulByte⟩
  | some [] => ⟨none, some [], noWrite, nulByte⟩
  | some (h :: t) =>
      if spNonNull then
        ⟨some (t.getLastD h), some (h :: t).dropLast, spWritten bufsize,
          spByte (t.getLastD h).data bufsize⟩
      else ⟨some (t.getLastD h), some (h :: t).dropLast, noWrite, nulByte⟩

/-! ## Allocation-aware model of the insert operations

`mallocOk` / `strdupOk` are the success of the two allocation calls.  The
result tracks how many element structs / string buffers were allocated and
freed during the call, so leak-freedom on the failure paths is the statement
`elemAlloc = elemFree ∧ strAlloc = strFree`. -/

structure InsertResult where
  ok : Bool
  queue : Option (List String)
  elemAlloc : Nat
  elemFree : Nat
  strAlloc : Nat
  strFree : Nat
  deriving DecidableEq

/-- The `q_insert_head` (queue.c:55-75).  NULL queue: `false` before any
allocation.  `malloc` failure: `false`, nothing was allocated.  `strdup`
failure: `q_release_element` frees the element (its `value` is NULL, so
`free(value)` frees nothing), then `false`.  Otherwise `list_add` links the
new element at the front. -/
def q_insert_head (q : Option (List String)) (s : String) (mallocOk strdupOk : Bool) :
    InsertResult :=
  match q with
  | none => ⟨false, none, 0, 0, 0, 0⟩
  | some l =>
      if mallocOk = false then ⟨false, some l, 0, 0, 0, 0⟩
      else if strdupOk = false then ⟨false, some l, 1, 1, 0, 0⟩
      else ⟨true, some (s :: l), 1, 0, 1, 0⟩

/-- The `q_insert_tail` (queue.c:84-104): as `q_insert_head` but linking with
`list_add_tail`, i.e. at the end of the traversal. -/
def q_insert_tail (q : Option (List String)) (s : String) (mallocOk strdupOk : Bool) :
    InsertResult :=
  match q with
  | none => ⟨false, none, 0, 0, 0, 0⟩
  | some l =>
      if mallocOk = false then ⟨false, some l, 0, 0, 0, 0⟩
      else if strdupOk = false then ⟨false, some l, 1, 1, 0, 0⟩
      else ⟨true, some (l ++ [s]), 1, 0, 1, 0⟩

/-- Outcome of a call whose argument may be a NULL pointer that the code
dereferences: either a normal return or undefined behaviour (the NULL
dereference inside `strdup`). -/
inductive CrashOr (α : Type) : Type
  | ok : α → CrashOr α
  | nullDeref : CrashOr α
  deriving DecidableEq

/-- The `q_insert_head` with a possibly-NULL text argument (queue.c:55-75): the
code checks `head` but never checks `s`; when `malloc` succeeds, `s` is
passed straight to `strdup` (queue.c:65), which dereferences it.  There is no
branch that turns a NULL `s` into a `false` return. -/
def q_insert_head_nullable (q : Option (List String)) (s : Option String)
    (mallocOk strdupOk : Bool) : CrashOr (Bool × Option (List String)) :=
  match q with
  | none => .ok (false, none)
  | some l =>
      if mallocOk = false then .ok (false, some l)
      else
        match s with
        | none => .nullDeref
        | some str =>
            if strdupOk = false then .ok (false, some l)
            else .ok (true, some (str :: l))

/-- The `q_insert_tail` with a possibly-NULL text argument (queue.c:84-104):
identical control flow; `s` reaches `strdup` (queue.c:94) unchecked. -/
def q_insert_tail_nullable (q : Option (List String)) (s : Option String)
    (mallocOk strdupOk : Bool) : CrashOr (Bool × Option (List String)) :=
  match q with
  | none => .ok (false, none)
  | some l =>
      if mallocOk = false then .ok (false, some l)
      else
        match s with
        | none => .nullDeref
        | some str =>
            if strdupOk = false then .ok (false, some l)
            else .ok (true, some (l ++ [str]))

/-! ## Correctness lemmas for the merge sort -/

/-- The merge loop permutes its two chains. -/
theorem mergeF_perm {α : Type} (val : α → String) :
    ∀ (fuel : Nat) (l r : List α), List.Perm (mergeF val fuel l r) (l ++ r)
  | 0, _, _ => List.Perm.refl _
  | _ + 1, [], r => by simp [mergeF]
  | _ + 1, a :: l, [] => by simp [mergeF]
  | fuel + 1, a :: l, b :: r => by
      rw [mergeF]
      by_cases hc : strLtS (val a) (val b) = true
      · rw [if_pos hc]
        exact List.Perm.cons a (mergeF_perm val fuel l (b :: r))
      · rw [if_neg hc]
        exact (List.Perm.cons b (mergeF_perm val fuel (a :: l) r)).trans
          List.perm_middle.symm

/-- The `mergeTwoLists` permutes its two chains. -/
theorem mergeTwoLists_perm {α : Type} (val : α → String) (l r : List α) :
    List.Perm (mergeTwoLists val l r) (l ++ r) :=
  mergeF_perm val (l.length + r.length) l r

/-- The merge loop of two sorted chains is sorted (in the `Pairwise` sense),
provided the fuel covers both chains. -/
theorem mergeF_sorted {α : Type} (val : α → String) :
    ∀ (fuel : Nat) (l r : List α), l.length + r.length ≤ fuel →
      List.Pairwise (fun a b => val a ≤ val b) l →
      List.Pairwise (fun a b => val a ≤ val b) r →
      List.Pairwise (fun a b => val a ≤ val b) (mergeF val fuel l r) := by
  intro fuel
  induction fuel with
  | zero =>
    intro l r hlen hl hr
    cases l with
    | cons a l => simp at hlen
    | nil =>
      cases r with
      | cons a r => simp at hlen
      | nil => simp [mergeF]
  | succ fuel ih =>
    intro l r hlen hl hr
    cases l with
    | nil => rw [mergeF]; exact hr
    | cons a l =>
      cases r with
      | nil => rw [mergeF]; exact hl
      | cons b r =>
        rw [mergeF]
        have hlen' : l.length + (b :: r).length ≤ fuel := by
          simp only [List.length_cons] at hlen ⊢; omega
        have hlen'' : (a :: l).length + r.length ≤ fuel := by
          simp only [List.length_cons] at hlen ⊢; omega
        by_cases hc : strLtS (val a) (val b) = true
        · rw [if_pos hc]
          have hab : val a < val b := (strLtS_iff _ _).mp hc
          rw [List.pairwise_cons]
          refine ⟨fun y hy => ?_, ih l (b :: r) hlen' (List.pairwise_cons.mp hl).2 hr⟩
          rcases List.mem_append.mp ((mergeF_perm val fuel l (b :: r)).mem_iff.mp hy)
            with hyl | hyr
          · exact (List.pairwise_cons.mp hl).1 y hyl
          · rcases List.mem_cons.mp hyr with hyb | hyr'
            · subst hyb; exact le_of_lt hab
            · exact le_trans (le_of_lt hab) ((List.pairwise_cons.mp hr).1 y hyr')
        · rw [if_neg hc]
          have hba : val b ≤ val a :=
            le_of_not_lt fun hlt => hc ((strLtS_iff _ _).mpr hlt)
          rw [List.pairwise_cons]
          refine ⟨fun y hy => ?_, ih (a :: l) r hlen'' hl (List.pairwise_cons.mp hr).2⟩
          rcases List.mem_append.mp ((mergeF_perm val fuel (a :: l) r).mem_iff.mp hy)
            with hyl | hyr
          · rcases List.mem_cons.mp hyl with hya | hyl'
            · subst hya; exact hba
            · exact le_trans hba ((List.pairwise_cons.mp hl).1 y hyl')
          · exact (List.pairwise_cons.mp hr).1 y hyr

/-- The `mergeTwoLists` of two sorted chains is sorted. -/
theorem mergeTwoLists_sorted {α : Type} (val : α → String) (l r : List α)
    (hl : List.Pairwise (fun a b => val a ≤ val b) l)
    (hr : List.Pairwise (fun a b => val a ≤ val b) r) :
    List.Pairwise (fun a b => val a ≤ val b) (mergeTwoLists val l r) :=
  mergeF_sorted val (l.length + r.length) l r le_rfl hl hr

/-- The `mergesort` permutes its chain, provided the fuel covers it. -/
theorem mergesortF_perm {α : Type} (val : α → String) :
    ∀ (fuel : Nat) (l : List α), l.length ≤ fuel →
      List.Perm (mergesortF val fuel l) l := by
  intro fuel
  induction fuel with
  | zero =>
    intro l hlen
    have : l = [] := List.length_eq_zero.mp (Nat.le_zero.mp hlen)
    subst this; exact List.Perm.refl _
  | succ fuel ih =>
    intro l hlen
    rw [mergesortF]
    by_cases h1 : l.length ≤ 1
    · rw [if_pos h1]
    · rw [if_neg h1]
      have h2 : 2 ≤ l.length := by omega
      have hta : (l.take (l.length / 2)).length ≤ fuel := by
        rw [List.length_take]; omega
      have hdr : (l.drop (l.length / 2)).length ≤ fuel := by
        rw [List.length_drop]; omega
      refine ((mergeTwoLists_perm val _ _).trans
        (List.Perm.append (ih _ hta) (ih _ hdr))).trans ?_
      rw [List.take_append_drop]

/-- The `mergesort` sorts its chain, provided the fuel covers it. -/
theorem mergesortF_sorted {α : Type} (val : α → String) :
    ∀ (fuel : Nat) (l : List α), l.length ≤ fuel →
      List.Pairwise (fun a b => val a ≤ val b) (mergesortF val fuel l) := by
  intro fuel
  induction fuel with
  | zero =>
    intro l hlen
    have : l = [] := List.length_eq_zero.mp (Nat.le_zero.mp hlen)
    subst this; simp [mergesortF]
  | succ fuel ih =>
    intro l hlen
    rw [mergesortF]
    by_cases h1 : l.length ≤ 1
    · rw [if_pos h1]
      rcases l with _ | ⟨a, _ | ⟨b, t⟩⟩
      · exact List.Pairwise.nil
      · simp
      · simp at h1
    · rw [if_neg h1]
      have h2 : 2 ≤ l.length := by omega
      have hta : (l.take (l.length / 2)).length ≤ fuel := by
        rw [List.length_take]; omega
      have hdr : (l.drop (l.length / 2)).length ≤ fuel := by
        rw [List.length_drop]; omega
      exact mergeTwoLists_sorted val _ _ (ih _ hta) (ih _ hdr)

/-- The sequence produced by `q_sortList` is sorted. -/
theorem q_sortList_sorted (l : List String) :
    List.Chain' (· ≤ ·) (q_sortList l) := by
  rcases l with _ | ⟨a, _ | ⟨b, t⟩⟩
  · simp [q_sortList]
  · simp [q_sortList]
  · show List.Chain' (· ≤ ·) (mergesort (fun s => s) (a :: b :: t))
    exact List.Pairwise.chain'
      (mergesortF_sorted (fun s => s) (a :: b :: t).length (a :: b :: t) le_rfl)

/-- The `q_sortList` permutes the queue contents. -/
theorem q_sortList_perm (l : List String) : List.Perm (q_sortList l) l := by
  rcases l with _ | ⟨a, _ | ⟨b, t⟩⟩
  · exact List.Perm.refl _
  · exact List.Perm.refl _
  · exact mergesortF_perm (fun s => s) (a :: b :: t).length (a :: b :: t) le_rfl

/-! ## Claim theorems (sequence level) -/

/-- C1: after `q_sort` every pair of adjacent elements `(a, b)` in traversal
order satisfies `compare(a.text, b.text) <= 0` (embedded: `a ≤ b` in the
lexicographic string order), and `q_sort` is a no-op on a NULL, empty or
one-element queue. -/
theorem q_sort_ascending_and_noop :
    (∀ l : List String, List.Chain' (· ≤ ·) (q_sortList l)) ∧
      q_sort none = none ∧ q_sortList [] = [] ∧ ∀ a : String, q_sortList [a] = [a] :=
  ⟨q_sortList_sorted, rfl, rfl, fun _ => rfl⟩

/-- C2 (evaluation at the failing input): `q_delete_dup` on
`["a","a","b","c","c"]` keeps the *last* element of every equal run, so the
result is `["a","b","c"]` — not `["b"]`, which both the claim and the
function's own documentation ("delete all nodes that have duplicate string")
require. -/
theorem q_delete_dup_keeps_last_of_run :
    q_delete_dup (some ["a", "a", "b", "c", "c"]) = (true, some ["a", "b", "c"]) ∧
      (true, some ["a", "b", "c"]) ≠
        ((true, some ["b"]) : Bool × Option (List String)) := by
  constructor
  · decide
  · decide

/-- C3 counterexample: on the six-element queue `q_delete_mid` removes `"d"`
(0-based index `3 = ⌊6/2⌋`), not `"c"` as the claim's concrete example says;
the remaining queue is `["a","b","c","e","f"]`, not `["a","b","d","e","f"]`. -/
theorem q_delete_mid_six_removes_d :
    q_delete_mid (some ["a", "b", "c", "d", "e", "f"]) =
        (true, some ["a", "b", "c", "e", "f"]) ∧
      some ["a", "b", "c", "e", "f"] ≠ some ["a", "b", "d", "e", "f"] := by
  constructor
  · decide
  · decide

/-- The fast/slow loop lands on index `slow + ⌊suffix/2⌋`. -/
theorem midLoop_eq {α : Type} :
    ∀ (l : List α) (k : Nat), midLoop l k = k + l.length / 2
  | [], k => by simp [midLoop]
  | [_], k => by simp [midLoop]
  | _ :: _ :: rest, k => by
      rw [midLoop, midLoop_eq rest (k + 1)]
      simp only [List.length_cons]
      omega

/-- C3 (amended): `q_delete_mid` on a non-empty queue deletes the element at
0-based index `⌊n/2⌋` (for six elements: index 3, `"d"`) and returns `true`;
it returns `false` on a NULL or empty queue. -/
theorem q_delete_mid_erases_floor_half :
    (∀ l : List String, l ≠ [] →
        q_delete_mid (some l) = (true, some (l.eraseIdx (l.length / 2)))) ∧
      q_delete_mid none = (false, none) ∧ q_delete_mid (some []) = (false, some []) := by
  refine ⟨fun l hl => ?_, rfl, rfl⟩
  cases l with
  | nil => exact absurd rfl hl
  | cons a t =>
    show (true, some ((a :: t).eraseIdx (midLoop (a :: t) 0))) = _
    rw [midLoop_eq]
    simp

/-- C3 amended-claim witness: the general theorem applied to the six-element
queue of the spec's example. -/
theorem q_delete_mid_erases_floor_half_witness :
    q_delete_mid (some ["a", "b", "c", "d", "e", "f"]) =
        (true, some (["a", "b", "c", "d", "e", "f"].eraseIdx
          (["a", "b", "c", "d", "e", "f"].length / 2))) ∧
      ["a", "b", "c", "d", "e", "f"].eraseIdx
          (["a", "b", "c", "d", "e", "f"].length / 2) = ["a", "b", "c", "e", "f"] :=
  ⟨q_delete_mid_erases_floor_half.1 ["a", "b", "c", "d", "e", "f"] (by decide),
    by decide⟩

/-- C6: in the merge step, when the heads of the two chains compare equal
(`strcmp == 0`), the head of the second (right) chain enters the output
before the head of the first (left) chain. -/
theorem mergeTwoLists_tie_takes_right {α : Type} (val : α → String) (a b : α)
    (l r : List α) (h : val a = val b) :
    mergeTwoLists val (a :: l) (b :: r) = b :: mergeTwoLists val (a :: l) r := by
  have hc : strLtS (val a) (val b) = false := by
    rw [Bool.eq_false_iff]
    intro hc
    exact absurd ((strLtS_iff _ _).mp hc) (by rw [h]; exact lt_irrefl _)
  show mergeF val ((a :: l).length + (b :: r).length) (a :: l) (b :: r) = _
  have hfuel : (a :: l).length + (b :: r).length = ((a :: l).length + r.length) + 1 := by
    simp only [List.length_cons]; omega
  rw [hfuel, mergeF, hc]
  simp [mergeTwoLists]

/-- C6 witness: two distinct nodes with equal keys; the right one is emitted
first, so the result order is observably swapped. -/
theorem mergeTwoLists_tie_takes_right_witness :
    mergeTwoLists Prod.fst [("a", 0)] [("a", 1)] = [("a", 1), ("a", 0)] := by
  rw [mergeTwoLists_tie_takes_right Prod.fst ("a", 0) ("a", 1) [] [] rfl]
  decide

/-- The `reverseLoop` prepends the traversal onto the accumulator in reverse. -/
theorem reverseLoop_eq {α : Type} :
    ∀ (l acc : List α), reverseLoop l acc = l.reverse ++ acc
  | [], acc => by simp [reverseLoop]
  | x :: rest, acc => by
      rw [reverseLoop, reverseLoop_eq rest (x :: acc)]
      simp

/-- C7: `q_reverse` produces exactly the reversed traversal order, is an
involution, and permutes (neither allocates nor frees) the elements, for
queues of any size. -/
theorem q_reverse_involution :
    ∀ l : List String, q_reverseList (q_reverseList l) = l ∧
      q_reverseList l = l.reverse ∧ List.Perm (q_reverseList l) l := by
  intro l
  have h : ∀ m : List String, q_reverseList m = m.reverse := by
    intro m; rw [q_reverseList, reverseLoop_eq]; simp
  refine ⟨?_, h l, ?_⟩
  · rw [h, h, List.reverse_reverse]
  · rw [h]; exact List.reverse_perm l

/-! ## Claim theorems: output buffer, insertion failure, null text -/

/-- With `1 ≤ bufsize < 2^64` the `size_t` computation `bufsize - 1` does not
wrap. -/
theorem bufLimit_eq {bufsize : Nat} (h1 : 1 ≤ bufsize) (h2 : bufsize < sizeW) :
    bufLimit bufsize = bufsize - 1 := by
  rw [bufLimit]
  have : bufsize + (sizeW - 1) = (bufsize - 1) + sizeW := by
    have : 1 ≤ sizeW := by rw [sizeW]; norm_num
    omega
  rw [this, Nat.add_mod_right]
  have : bufsize - 1 < sizeW := by omega
  exact Nat.mod_eq_of_lt this

set_option maxRecDepth 4000 in
/-- C5 (amended: `bufsize ≥ 1`, `bufsize` a representable `size_t`): for a
non-empty queue and non-null buffer, `q_remove_head` and `q_remove_tail`
remove the boundary element, write exactly the byte indices `0 .. bufsize-1`
(never outside the buffer), and each written byte is a text character only
below index `min (bufsize-1) (text length)` — at most `bufsize - 1` text
characters, the rest null bytes (terminator/padding), truncating as needed. -/
theorem q_remove_buffer_in_bounds :
    ∀ (h : String) (t : List String) (bufsize : Nat), 1 ≤ bufsize → bufsize < sizeW →
      ((q_remove_head (some (h :: t)) true bufsize).removed = some h ∧
        (q_remove_head (some (h :: t)) true bufsize).queue = some t ∧
        (∀ i, (q_remove_head (some (h :: t)) true bufsize).written i = true ↔
          i < bufsize) ∧
        (∀ i, (q_remove_head (some (h :: t)) true bufsize).byteAt i =
          if i < min (bufsize - 1) h.data.length then h.data.getD i (Char.ofNat 0)
          else Char.ofNat 0)) ∧
      ((q_remove_tail (some (h :: t)) true bufsize).removed = some (t.getLastD h) ∧
        (q_remove_tail (some (h :: t)) true bufsize).queue = some (h :: t).dropLast ∧
        (∀ i, (q_remove_tail (some (h :: t)) true bufsize).written i = true ↔
          i < bufsize) ∧
        (∀ i, (q_remove_tail (some (h :: t)) true bufsize).byteAt i =
          if i < min (bufsize - 1) (t.getLastD h).data.length then
            (t.getLastD h).data.getD i (Char.ofNat 0)
          else Char.ofNat 0)) := by
  intro h t bufsize h1 h2
  have hb := bufLimit_eq h1 h2
  have hwr : ∀ i, spWritten bufsize i = true ↔ i < bufsize := by
    intro i
    rw [spWritten, hb, decide_eq_true_eq]
    omega
  have hby : ∀ (v : List Char) (i : Nat), spByte v bufsize i =
      if i < min (bufsize - 1) v.length then v.getD i (Char.ofNat 0)
      else Char.ofNat 0 := by
    intro v i
    rw [spByte, hb]
    by_cases hc : i < bufsize - 1 ∧ i < v.length
    · rw [if_pos hc, if_pos (Nat.lt_min.mpr hc)]
    · rw [if_neg hc, if_neg (fun hmin => hc (Nat.lt_min.mp hmin))]
  simp only [q_remove_head, q_remove_tail, if_true]
  exact ⟨⟨trivial, trivial, hwr, fun i => hby h.data i⟩,
    ⟨trivial, trivial, hwr, fun i => hby (t.getLastD h).data i⟩⟩

/-- C5 witness: a concrete removal with `bufsize = 2` and a longer text —
byte 0 is the (truncated) text, byte 1 the terminator, and only indices
`0` and `1` are written. -/
theorem q_remove_buffer_in_bounds_witness :
    (q_remove_head (some ["abc"]) true 2).removed = some "abc" ∧
      ((q_remove_head (some ["abc"]) true 2).written 0 = true ↔ 0 < 2) ∧
      ((q_remove_head (some ["abc"]) true 2).written 2 = true ↔ 2 < 2) ∧
      (q_remove_head (some ["abc"]) true 2).byteAt 0 =
        (if 0 < min (2 - 1) "abc".data.length then "abc".data.getD 0 (Char.ofNat 0)
          else Char.ofNat 0) ∧
      (q_remove_head (some ["abc"]) true 2).byteAt 1 =
        (if 1 < min (2 - 1) "abc".data.length then "abc".data.getD 1 (Char.ofNat 0)
          else Char.ofNat 0) :=
  have h := q_remove_buffer_in_bounds "abc" [] 2 (by decide)
    (by rw [sizeW]; norm_num)
  ⟨h.1.1, h.1.2.2.1 0, h.1.2.2.1 2, h.1.2.2.2 0, h.1.2.2.2 1⟩

/-- C5 counterexample: with `bufsize = 0` the `size_t` expression
`bufsize - 1` wraps to `2^64 - 1`, and the copy code writes byte index 0 (and
far beyond) although the buffer has zero bytes — a write outside the
buffer's bounds, refuting the claim for "any size bufsize". -/
theorem q_remove_head_bufsize_zero_out_of_bounds :
    (q_remove_head (some ["a"]) true 0).written 0 = true ∧ ¬ (0 < 0) ∧
      (q_remove_head (some ["a"]) true 0).written 4096 = true := by
  refine ⟨?_, by omega, ?_⟩
  · show spWritten 0 0 = true
    rw [spWritten, decide_eq_true_eq]
    exact Nat.zero_le _
  · show spWritten 0 4096 = true
    rw [spWritten, decide_eq_true_eq, bufLimit]
    norm_num [sizeW]

/-- C8: `q_insert_head` / `q_insert_tail` return `false` when the queue is
NULL or either allocation fails; on any failure path the queue is unchanged
and every allocated element/string has been freed (no leak; in particular the
partially constructed element is released on `strdup` failure). -/
theorem q_insert_failure_no_leak :
    ∀ (l : List String) (s : String) (mOk sOk : Bool),
      ((q_insert_head none s mOk sOk).ok = false ∧
        (q_insert_head none s mOk sOk).queue = none ∧
        (q_insert_tail none s mOk sOk).ok = false ∧
        (q_insert_tail none s mOk sOk).queue = none) ∧
      (¬ (mOk = true ∧ sOk = true) →
        ((q_insert_head (some l) s mOk sOk).ok = false ∧
          (q_insert_head (some l) s mOk sOk).queue = some l ∧
          (q_insert_head (some l) s mOk sOk).elemAlloc =
            (q_insert_head (some l) s mOk sOk).elemFree ∧
          (q_insert_head (some l) s mOk sOk).strAlloc =
            (q_insert_head (some l) s mOk sOk).strFree) ∧
        ((q_insert_tail (some l) s mOk sOk).ok = false ∧
          (q_insert_tail (some l) s mOk sOk).queue = some l ∧
          (q_insert_tail (some l) s mOk sOk).elemAlloc =
            (q_insert_tail (some l) s mOk sOk).elemFree ∧
          (q_insert_tail (some l) s mOk sOk).strAlloc =
            (q_insert_tail (some l) s mOk sOk).strFree)) := by
  intro l s mOk sOk
  refine ⟨⟨rfl, rfl, rfl, rfl⟩, fun hfail => ?_⟩
  cases mOk with
  | false => simp [q_insert_head, q_insert_tail]
  | true =>
    cases sOk with
    | false => simp [q_insert_head, q_insert_tail]
    | true => exact absurd ⟨rfl, rfl⟩ hfail

/-- C8 witness: `strdup` failure on a one-element queue — `false` is
returned, the queue is untouched, and the element allocated by `malloc` was
freed again. -/
theorem q_insert_failure_no_leak_witness :
    (q_insert_head (some ["x"]) "y" true false).ok = false ∧
      (q_insert_head (some ["x"]) "y" true false).queue = some ["x"] ∧
      (q_insert_head (some ["x"]) "y" true false).elemAlloc =
        (q_insert_head (some ["x"]) "y" true false).elemFree :=
  have h := (q_insert_failure_no_leak ["x"] "y" true false).2 (by simp)
  ⟨h.1.1, h.1.2.1, h.1.2.2.1⟩

/-- C10: with a NULL text argument and a non-NULL queue, once `malloc`
succeeds the text pointer reaches `strdup` unchecked, producing a NULL
dereference — the call does not return `false` (or anything else): there is
no null-text error branch in `q_insert_head` / `q_insert_tail`. -/
theorem q_insert_null_text_not_checked :
    ∀ (l : List String) (sOk : Bool),
      q_insert_head_nullable (some l) none true sOk = CrashOr.nullDeref ∧
      q_insert_tail_nullable (some l) none true sOk = CrashOr.nullDeref ∧
      ∀ res : Bool × Option (List String),
        (CrashOr.nullDeref : CrashOr (Bool × Option (List String))) ≠ CrashOr.ok res := by
  intro l sOk
  refine ⟨rfl, rfl, fun res h => ?_⟩
  cases h

end Queue

namespace Ring

/-!
## Pointer-level model of the circular doubly-linked ring

Nodes are identified by natural-number ids; a heap assigns each id its
`next` and `prev` fields.  The `list.h` link-layer primitives used by
`queue.c` (`list_add`, `list_del`, `list_del_init`, `list_move`,
`INIT_LIST_HEAD`) are repository code outside `src/`, so they are modelled
from the spec (§4.1 Link Layer; §3 ring invariant; the Linux-list semantics
the spec names): each primitive is the corresponding sequence of pointer
writes.
-/

/-- A heap of doubly-linked nodes. -/
structure Heap where
  nxt : Nat → Nat
  prv : Nat → Nat

/-- Write the `next` field of node `a`. -/
def Heap.setNxt (H : Heap) (a v : Nat) : Heap :=
  ⟨fun x => if x = a then v else H.nxt x, H.prv⟩

/-- Write the `prev` field of node `a`. -/
def Heap.setPrv (H : Heap) (a v : Nat) : Heap :=
  ⟨H.nxt, fun x => if x = a then v else H.prv x⟩

/-- Modelled from the spec: `INIT_LIST_HEAD(n)` — the node becomes
self-linked (`n->next = n->prev = n`), the empty-ring state of a sentinel. -/
def INIT_LIST_HEAD (H : Heap) (n : Nat) : Heap :=
  (H.setNxt n n).setPrv n n

/-- Modelled from the spec: `link(node, afterNode)` — `list_add(node, head)`
splices `node` immediately after `head`:
`head->next->prev = node; node->next = head->next; node->prev = head;
head->next = node`. -/
def list_add (H : Heap) (node head : Nat) : Heap :=
  let q := H.nxt head
  (((H.setPrv q node).setNxt node q).setPrv node head).setNxt head node

/-- Modelled from the spec: `unlink(node)` — `list_del`:
`node->prev->next = node->next; node->next->prev = node->prev`. -/
def list_del (H : Heap) (node : Nat) : Heap :=
  (H.setNxt (H.prv node) (H.nxt node)).setPrv (H.nxt node) (H.prv node)

/-- Modelled from the spec: `list_del_init(node)` — unlink, then re-initialise
the node to the self-linked state. -/
def list_del_init (H : Heap) (node : Nat) : Heap :=
  INIT_LIST_HEAD (list_del H node) node

/-- Modelled from the spec: `moveToFront`/`list_move(node, head)` — unlink
then splice immediately after `head`. -/
def list_move (H : Heap) (node head : Nat) : Heap :=
  list_add (list_del H node) node head

/-- The `next` fields follow the list `l` left to right. -/
def nxtChain (H : Heap) (l : List Nat) : Prop :=
  List.Chain' (fun a b => H.nxt a = b) l

/-- The `prev` fields follow the list `l` right to left. -/
def prvChain (H : Heap) (l : List Nat) : Prop :=
  List.Chain' (fun a b => H.prv b = a) l

/-- The sentinel `s` followed by the element nodes `xs` (in traversal order)
forms a well-formed circular doubly-linked ring in `H`: all ids distinct,
`next`/`prev` follow the sequence, and the ends wrap through the sentinel. -/
structure IsRing (H : Heap) (s : Nat) (xs : List Nat) : Prop where
  nodup : (s :: xs).Nodup
  nxtC : nxtChain H (s :: xs)
  prvC : prvChain H (s :: xs)
  nxtLast : H.nxt (xs.getLastD s) = s
  prvHead : H.prv s = xs.getLastD s

/-- The per-node ring invariant of the claim:
`node.next.prev == node && node.prev.next == node`. -/
def nodeInv (H : Heap) (x : Nat) : Prop :=
  H.prv (H.nxt x) = x ∧ H.nxt (H.prv x) = x

/-! ### List helpers -/

/-- The `getLastD` of an appended non-empty suffix. -/
theorem getLastD_append_cons :
    ∀ (l1 : List Nat) (x : Nat) (l2 : List Nat) (d : Nat),
      (l1 ++ x :: l2).getLastD d = l2.getLastD x
  | [], x, l2, d => by
      cases l2 with
      | nil => rfl
      | cons c l2 => rfl
  | a :: l1, x, l2, d => by
      rw [List.cons_append, List.getLastD_cons]
      exact getLastD_append_cons l1 x l2 a

/-- The `getLast` of a cons list as `getLastD`. -/
theorem getLast_cons_getLastD :
    ∀ (a : Nat) (l : List Nat), (a :: l).getLast (by simp) = l.getLastD a
  | _, [] => rfl
  | a, b :: l => by
      rw [List.getLast_cons (by simp : b :: l ≠ []), List.getLastD_cons]
      exact getLast_cons_getLastD b l

/-- The `getLast?` of a cons list as `getLastD`. -/
theorem getLast?_cons_getLastD (a : Nat) (l : List Nat) :
    (a :: l).getLast? = some (l.getLastD a) := by
  rw [List.getLast?_eq_getLast (a :: l) (by simp)]
  exact congrArg some (getLast_cons_getLastD a l)

/-- The defaulted last element is a member of the defaulted cons list. -/
theorem getLastD_mem_cons : ∀ (l : List Nat) (a : Nat), l.getLastD a ∈ a :: l
  | [], _ => by simp
  | b :: l, a => by
      rw [List.getLastD_cons]
      exact List.mem_cons_of_mem a (getLastD_mem_cons l b)

/-- In a duplicate-free cons list, the last element does not occur in
`dropLast`. -/
theorem getLastD_not_mem_dropLast (a : Nat) (l : List Nat)
    (hn : (a :: l).Nodup) : l.getLastD a ∉ (a :: l).dropLast := by
  have h1 : (a :: l).getLast (by simp) = l.getLastD a := getLast_cons_getLastD a l
  have h2 := List.dropLast_append_getLast (show a :: l ≠ [] by simp)
  rw [h1] at h2
  rw [← h2] at hn
  have h3 := List.disjoint_of_nodup_append hn
  intro hmem
  exact h3 hmem (List.mem_singleton_self _)

/-- Transfer a `next`-chain between heaps that agree on every node the chain
reads (`dropLast`: the final entry's `next` is not part of the chain). -/
theorem nxtChain_congr {H G : Heap} :
    ∀ {l : List Nat}, (∀ a ∈ l.dropLast, G.nxt a = H.nxt a) →
      nxtChain H l → nxtChain G l
  | [], _, _ => List.chain'_nil
  | [a], _, _ => List.chain'_singleton a
  | a :: b :: l, hag, hc => by
      rw [nxtChain, List.chain'_cons]
      rcases (List.chain'_cons.mp hc) with ⟨h1, h2⟩
      refine ⟨?_, nxtChain_congr (fun x hx => hag x ?_) h2⟩
      · rw [hag a (by simp), h1]
      · rw [List.dropLast_cons₂]
        exact List.mem_cons_of_mem a hx

/-- Transfer a `prev`-chain between heaps that agree on every node the chain
reads (the tail: the first entry's `prev` is not part of the chain). -/
theorem prvChain_congr {H G : Heap} :
    ∀ {l : List Nat}, (∀ a ∈ l.tail, G.prv a = H.prv a) →
      prvChain H l → prvChain G l
  | [], _, _ => List.chain'_nil
  | [a], _, _ => List.chain'_singleton a
  | a :: b :: l, hag, hc => by
      rw [prvChain, List.chain'_cons]
      rcases (List.chain'_cons.mp hc) with ⟨h1, h2⟩
      refine ⟨?_, prvChain_congr (fun x hx => hag x ?_) h2⟩
      · rw [hag b (by simp), h1]
      · exact List.mem_cons_of_mem b hx

/-! ### Ring surgery lemmas -/

/-- Unlinking a node from anywhere in a ring (`list_del`) leaves a ring on
the remaining nodes. -/
theorem ring_del {H : Heap} {s x : Nat} {l1 l2 : List Nat}
    (R : IsRing H s (l1 ++ x :: l2)) : IsRing (list_del H x) s (l1 ++ l2) := by
  have hnodup : ((s :: l1) ++ x :: l2).Nodup := by
    rw [List.cons_append]; exact R.nodup
  have hdisj : List.Disjoint (s :: l1) (x :: l2) :=
    List.disjoint_of_nodup_append hnodup
  have hndl : (s :: l1).Nodup := (List.nodup_append.mp hnodup).1
  have hndr : (x :: l2).Nodup := (List.nodup_append.mp hnodup).2.1
  have hgl : (s :: l1).getLast? = some (l1.getLastD s) := getLast?_cons_getLastD s l1
  have hnx := R.nxtC
  simp only [nxtChain] at hnx
  rw [← List.cons_append, List.chain'_append] at hnx
  obtain ⟨hnx1, hnx2, hnxj⟩ := hnx
  have hpv := R.prvC
  simp only [prvChain] at hpv
  rw [← List.cons_append, List.chain'_append] at hpv
  obtain ⟨hpv1, hpv2, hpvj⟩ := hpv
  have hjp : H.prv x = l1.getLastD s := hpvj _ (by simp [hgl]) x (by simp)
  have hpmem : l1.getLastD s ∈ s :: l1 := getLastD_mem_cons l1 s
  have hGnxt : ∀ a, (list_del H x).nxt a =
      if a = l1.getLastD s then H.nxt x else H.nxt a := by
    intro a
    show (if a = H.prv x then H.nxt x else H.nxt a) = _
    rw [hjp]
  have hGprv : ∀ b, (list_del H x).prv b =
      if b = H.nxt x then H.prv x else H.prv b := fun b => rfl
  have hsub : List.Sublist (s :: (l1 ++ l2)) (s :: (l1 ++ x :: l2)) :=
    List.Sublist.cons₂ s ((List.sublist_cons_self x l2).append_left l1)
  have hnodup' : (s :: (l1 ++ l2)).Nodup := R.nodup.sublist hsub
  cases l2 with
  | nil =>
    have hq : H.nxt x = s := by
      have h := R.nxtLast
      rwa [getLastD_append_cons l1 x [] s] at h
    rw [List.append_nil] at hnodup' ⊢
    refine ⟨hnodup', ?_, ?_, ?_, ?_⟩
    · refine nxtChain_congr (fun a ha => ?_) hnx1
      rw [hGnxt a, if_neg ?_]
      intro heq
      exact (getLastD_not_mem_dropLast s l1 hndl) (heq ▸ ha)
    · refine prvChain_congr (fun b hb => ?_) hpv1
      rw [hGprv b, if_neg ?_]
      intro heq
      rw [hq] at heq
      rw [heq] at hb
      exact (List.nodup_cons.mp hndl).1 hb
    · rw [hGnxt, if_pos rfl, hq]
    · rw [hGprv s, if_pos hq.symm, hjp]
  | cons c l2' =>
    have hq : H.nxt x = c := (List.chain'_cons.mp hnx2).1
    have hcmem : c ∈ x :: c :: l2' := List.mem_cons_of_mem x (List.mem_cons_self c l2')
    have hlast_mem : l2'.getLastD c ∈ x :: c :: l2' :=
      List.mem_cons_of_mem x (getLastD_mem_cons l2' c)
    have hold : H.nxt (l2'.getLastD c) = s := by
      have h := R.nxtLast
      rwa [getLastD_append_cons l1 x (c :: l2') s, List.getLastD_cons] at h
    have holdp : H.prv s = l2'.getLastD c := by
      have h := R.prvHead
      rwa [getLastD_append_cons l1 x (c :: l2') s, List.getLastD_cons] at h
    refine ⟨hnodup', ?_, ?_, ?_, ?_⟩
    · show nxtChain (list_del H x) (s :: (l1 ++ c :: l2'))
      simp only [nxtChain]
      rw [← List.cons_append, List.chain'_append]
      refine ⟨?_, ?_, ?_⟩
      · refine nxtChain_congr (fun a ha => ?_) hnx1
        rw [hGnxt a, if_neg ?_]
        intro heq
        exact (getLastD_not_mem_dropLast s l1 hndl) (heq ▸ ha)
      · refine nxtChain_congr (fun a ha => ?_) hnx2.tail
        rw [hGnxt a, if_neg ?_]
        intro heq
        have hamem : a ∈ x :: c :: l2' :=
          List.mem_cons_of_mem x ((List.dropLast_sublist (c :: l2')).subset ha)
        exact hdisj (heq ▸ hpmem) hamem
      · intro a ha y hy
        rw [hgl] at ha
        simp only [Option.mem_some_iff] at ha
        simp only [List.head?_cons, Option.mem_some_iff] at hy
        rw [← ha, ← hy, hGnxt, if_pos rfl, hq]
    · show prvChain (list_del H x) (s :: (l1 ++ c :: l2'))
      simp only [prvChain]
      rw [← List.cons_append, List.chain'_append]
      refine ⟨?_, ?_, ?_⟩
      · refine prvChain_congr (fun b hb => ?_) hpv1
        rw [hGprv b, if_neg ?_]
        intro heq
        rw [hq] at heq
        rw [heq] at hb
        exact hdisj (List.mem_cons_of_mem s hb) hcmem
      · refine prvChain_congr (fun b hb => ?_) hpv2.tail
        rw [hGprv b, if_neg ?_]
        intro heq
        rw [hq] at heq
        rw [heq] at hb
        have : (c :: l2').Nodup := hndr.of_cons
        exact (List.nodup_cons.mp this).1 hb
      · intro a ha y hy
        rw [hgl] at ha
        simp only [Option.mem_some_iff] at ha
        simp only [List.head?_cons, Option.mem_some_iff] at hy
        rw [← ha, ← hy, hGprv, if_pos hq.symm, hjp]
    · show (list_del H x).nxt ((l1 ++ c :: l2').getLastD s) = s
      rw [getLastD_append_cons l1 c l2' s, hGnxt, if_neg ?_, hold]
      intro heq
      exact hdisj (heq ▸ hpmem) hlast_mem
    · show (list_del H x).prv s = (l1 ++ c :: l2').getLastD s
      rw [getLastD_append_cons l1 c l2' s, hGprv s, if_neg ?_, holdp]
      intro heq
      rw [hq] at heq
      subst heq
      exact hdisj (List.mem_cons_self s l1)
        (List.mem_cons_of_mem x (List.mem_cons_self s l2'))

/-- Splicing a fresh node immediately after the sentinel (`list_add(x, s)`)
turns a ring into a ring with the node at the front. -/
theorem ring_add_front {H : Heap} {s x : Nat} {xs : List Nat}
    (R : IsRing H s xs) (hx : x ∉ s :: xs) : IsRing (list_add H x s) s (x :: xs) := by
  have hGnxt : ∀ a, (list_add H x s).nxt a =
      if a = s then x else if a = x then H.nxt s else H.nxt a := fun a => rfl
  have hGprv : ∀ b, (list_add H x s).prv b =
      if b = x then s else if b = H.nxt s then x else H.prv b := fun b => rfl
  have hxns : x ≠ s := fun h => hx (h ▸ List.mem_cons_self s xs)
  have hxnxs : x ∉ xs := fun h => hx (List.mem_cons_of_mem s h)
  cases xs with
  | nil =>
    have hq : H.nxt s = s := R.nxtLast
    have hp : H.prv s = s := R.prvHead
    refine ⟨?_, ?_, ?_, ?_, ?_⟩
    · simp [List.nodup_cons, hxns.symm]
    · show List.Chain' _ [s, x]
      rw [List.chain'_cons]
      exact ⟨by rw [hGnxt s, if_pos rfl], List.chain'_singleton x⟩
    · show List.Chain' _ [s, x]
      rw [List.chain'_cons]
      exact ⟨by rw [hGprv x, if_pos rfl], List.chain'_singleton x⟩
    · show (list_add H x s).nxt x = s
      rw [hGnxt x, if_neg hxns, if_pos rfl, hq]
    · show (list_add H x s).prv s = x
      rw [hGprv s, if_neg hxns.symm, if_pos hq.symm]
  | cons c xs' =>
    have hchain_nxt : List.Chain' (fun a b => H.nxt a = b) (s :: c :: xs') := R.nxtC
    have hchain_prv : List.Chain' (fun a b => H.prv b = a) (s :: c :: xs') := R.prvC
    have hq : H.nxt s = c := (List.chain'_cons.mp hchain_nxt).1
    have hnxt_tail : List.Chain' (fun a b => H.nxt a = b) (c :: xs') :=
      (List.chain'_cons.mp hchain_nxt).2
    have hprv_tail : List.Chain' (fun a b => H.prv b = a) (c :: xs') :=
      (List.chain'_cons.mp hchain_prv).2
    have hnext : H.nxt (xs'.getLastD c) = s := by
      have h := R.nxtLast
      rwa [List.getLastD_cons] at h
    have hprev : H.prv s = xs'.getLastD c := by
      have h := R.prvHead
      rwa [List.getLastD_cons] at h
    have hsnm : s ∉ c :: xs' := (List.nodup_cons.mp R.nodup).1
    have hnd : (c :: xs').Nodup := (List.nodup_cons.mp R.nodup).2
    have hy0 : xs'.getLastD c ∈ c :: xs' := getLastD_mem_cons xs' c
    have hcs : c ≠ s := fun h => hsnm (h ▸ List.mem_cons_self c xs')
    refine ⟨?_, ?_, ?_, ?_, ?_⟩
    · rw [List.nodup_cons, List.nodup_cons]
      refine ⟨?_, hxnxs, hnd⟩
      intro hmem
      rcases List.mem_cons.mp hmem with h1 | h1
      · exact hxns h1.symm
      · exact hsnm h1
    · show List.Chain' _ (s :: x :: c :: xs')
      rw [List.chain'_cons, List.chain'_cons]
      refine ⟨by rw [hGnxt s, if_pos rfl], ?_, ?_⟩
      · rw [hGnxt x, if_neg hxns, if_pos rfl, hq]
      · refine nxtChain_congr (fun a ha => ?_) hnxt_tail
        have hamem : a ∈ c :: xs' := (List.dropLast_sublist (c :: xs')).subset ha
        have h1 : a ≠ s := fun h => hsnm (h ▸ hamem)
        have h2 : a ≠ x := fun h => hxnxs (h ▸ hamem)
        rw [hGnxt a, if_neg h1, if_neg h2]
    · show List.Chain' _ (s :: x :: c :: xs')
      rw [List.chain'_cons, List.chain'_cons]
      have hcnx : c ≠ x := fun h => hxnxs (h ▸ List.mem_cons_self c xs')
      refine ⟨by rw [hGprv x, if_pos rfl], ?_, ?_⟩
      · rw [hGprv c, if_neg hcnx, if_pos hq.symm]
      · refine prvChain_congr (fun b hb => ?_) hprv_tail
        have hbmem : b ∈ c :: xs' := List.mem_cons_of_mem c hb
        have h1 : b ≠ x := fun h => hxnxs (h ▸ hbmem)
        have h2 : b ≠ c := fun h => (List.nodup_cons.mp hnd).1 (h ▸ hb)
        rw [hGprv b, if_neg h1, hq, if_neg h2]
    · show (list_add H x s).nxt ((c :: xs').getLastD x) = s
      have h1 : xs'.getLastD c ≠ s := fun h => hsnm (h ▸ hy0)
      have h2 : xs'.getLastD c ≠ x := fun h => hxnxs (h ▸ hy0)
      rw [List.getLastD_cons, hGnxt, if_neg h1, if_neg h2, hnext]
    · show (list_add H x s).prv s = (c :: xs').getLastD x
      rw [List.getLastD_cons, hGprv s, if_neg hxns.symm, hq, if_neg hcs.symm, hprev]

/-- Splicing a fresh node immediately after an element node `y`
(`list_add(x, y)`) inserts it right after `y` in traversal order. -/
theorem ring_add_after {H : Heap} {s x y : Nat} {l1 l2 : List Nat}
    (R : IsRing H s (l1 ++ y :: l2)) (hx : x ∉ s :: (l1 ++ y :: l2)) :
    IsRing (list_add H x y) s (l1 ++ y :: x :: l2) := by
  have hGnxt : ∀ a, (list_add H x y).nxt a =
      if a = y then x else if a = x then H.nxt y else H.nxt a := fun a => rfl
  have hGprv : ∀ b, (list_add H x y).prv b =
      if b = x then y else if b = H.nxt y then x else H.prv b := fun b => rfl
  have hnodup : ((s :: l1) ++ y :: l2).Nodup := by
    rw [List.cons_append]; exact R.nodup
  have hdisj : List.Disjoint (s :: l1) (y :: l2) :=
    List.disjoint_of_nodup_append hnodup
  have hndl : (s :: l1).Nodup := (List.nodup_append.mp hnodup).1
  have hndr : (y :: l2).Nodup := (List.nodup_append.mp hnodup).2.1
  have hgl : (s :: l1).getLast? = some (l1.getLastD s) := getLast?_cons_getLastD s l1
  have hnx := R.nxtC
  simp only [nxtChain] at hnx
  rw [← List.cons_append, List.chain'_append] at hnx
  obtain ⟨hnx1, hnx2, hnxj⟩ := hnx
  have hpv := R.prvC
  simp only [prvChain] at hpv
  rw [← List.cons_append, List.chain'_append] at hpv
  obtain ⟨hpv1, hpv2, hpvj⟩ := hpv
  have hjy : H.nxt (l1.getLastD s) = y := hnxj _ (by simp [hgl]) y (by simp)
  have hjp : H.prv y = l1.getLastD s := hpvj _ (by simp [hgl]) y (by simp)
  have hpmem : l1.getLastD s ∈ s :: l1 := getLastD_mem_cons l1 s
  have hmem1 : ∀ a, a ∈ s :: l1 → a ∈ s :: (l1 ++ y :: l2) := by
    intro a ha
    rcases List.mem_cons.mp ha with h | h
    · exact h ▸ List.mem_cons_self _ _
    · exact List.mem_cons_of_mem s (List.mem_append_left _ h)
  have hmem2 : ∀ a, a ∈ y :: l2 → a ∈ s :: (l1 ++ y :: l2) := fun a ha =>
    List.mem_cons_of_mem s (List.mem_append_right l1 ha)
  have hxne1 : ∀ a, a ∈ s :: l1 → a ≠ x := fun a ha h => hx (h ▸ hmem1 a ha)
  have hxne2 : ∀ a, a ∈ y :: l2 → a ≠ x := fun a ha h => hx (h ▸ hmem2 a ha)
  have hxns : x ≠ s := fun h => hx (h ▸ List.mem_cons_self s (l1 ++ y :: l2))
  have hyy : y ∈ y :: l2 := List.mem_cons_self y l2
  have hynl1 : y ∉ s :: l1 := fun h => hdisj h hyy
  have hxny : x ≠ y := fun h => (hxne2 y hyy) h.symm
  have hnodup' : (s :: (l1 ++ y :: x :: l2)).Nodup := by
    have h1 : s :: (l1 ++ y :: x :: l2) = (s :: l1 ++ [y]) ++ x :: l2 := by simp
    have h2 : (s :: l1 ++ [y]) ++ l2 = s :: (l1 ++ y :: l2) := by simp
    have hperm : List.Perm (s :: (l1 ++ y :: x :: l2)) (x :: (s :: (l1 ++ y :: l2))) := by
      rw [h1, ← h2]
      exact List.perm_middle
    rw [hperm.nodup_iff, List.nodup_cons]
    exact ⟨hx, R.nodup⟩
  cases l2 with
  | nil =>
    have hq : H.nxt y = s := by
      have hl := R.nxtLast
      rwa [getLastD_append_cons l1 y [] s] at hl
    have hyns : y ≠ s := fun h => hynl1 (h ▸ List.mem_cons_self s l1)
    refine ⟨hnodup', ?_, ?_, ?_, ?_⟩
    · show nxtChain (list_add H x y) (s :: (l1 ++ y :: x :: []))
      simp only [nxtChain]
      rw [← List.cons_append, List.chain'_append]
      refine ⟨?_, ?_, ?_⟩
      · refine nxtChain_congr (fun a ha => ?_) hnx1
        have hamem : a ∈ s :: l1 := (List.dropLast_sublist (s :: l1)).subset ha
        have h1 : a ≠ y := fun h => hynl1 (h ▸ hamem)
        have h2 : a ≠ x := hxne1 a hamem
        rw [hGnxt a, if_neg h1, if_neg h2]
      · rw [List.chain'_cons]
        exact ⟨by rw [hGnxt y, if_pos rfl], List.chain'_singleton x⟩
      · intro a ha z hz
        rw [hgl] at ha
        simp only [Option.mem_some_iff] at ha
        simp only [List.head?_cons, Option.mem_some_iff] at hz
        have h1 : l1.getLastD s ≠ y := fun h => hynl1 (h ▸ hpmem)
        have h2 : l1.getLastD s ≠ x := hxne1 _ hpmem
        rw [← ha, ← hz, hGnxt, if_neg h1, if_neg h2, hjy]
    · show prvChain (list_add H x y) (s :: (l1 ++ y :: x :: []))
      simp only [prvChain]
      rw [← List.cons_append, List.chain'_append]
      refine ⟨?_, ?_, ?_⟩
      · refine prvChain_congr (fun b hb => ?_) hpv1
        have hbmem : b ∈ s :: l1 := List.mem_cons_of_mem s hb
        have h1 : b ≠ x := hxne1 b hbmem
        have h2 : b ≠ s := fun h => (List.nodup_cons.mp hndl).1 (h ▸ hb)
        rw [hGprv b, if_neg h1, hq, if_neg h2]
      · rw [List.chain'_cons]
        exact ⟨by rw [hGprv x, if_pos rfl], List.chain'_singleton x⟩
      · intro a ha z hz
        rw [hgl] at ha
        simp only [Option.mem_some_iff] at ha
        simp only [List.head?_cons, Option.mem_some_iff] at hz
        rw [← ha, ← hz, hGprv y, if_neg hxny.symm, hq, if_neg hyns, hjp]
    · show (list_add H x y).nxt ((l1 ++ y :: x :: []).getLastD s) = s
      rw [getLastD_append_cons l1 y [x] s, List.getLastD_cons, List.getLastD_nil,
        hGnxt, if_neg hxny, if_pos rfl, hq]
    · show (list_add H x y).prv s = (l1 ++ y :: x :: []).getLastD s
      rw [getLastD_append_cons l1 y [x] s, List.getLastD_cons, List.getLastD_nil,
        hGprv s, if_neg hxns.symm, if_pos hq.symm]
  | cons c l2' =>
    have hq : H.nxt y = c := (List.chain'_cons.mp hnx2).1
    have hnx2' : List.Chain' (fun a b => H.nxt a = b) (c :: l2') :=
      (List.chain'_cons.mp hnx2).2
    have hpv2' : List.Chain' (fun a b => H.prv b = a) (c :: l2') :=
      (List.chain'_cons.mp hpv2).2
    have hcmem : c ∈ y :: c :: l2' := List.mem_cons_of_mem y (List.mem_cons_self c l2')
    have hy0mem : l2'.getLastD c ∈ y :: c :: l2' :=
      List.mem_cons_of_mem y (getLastD_mem_cons l2' c)
    have hold : H.nxt (l2'.getLastD c) = s := by
      have hl := R.nxtLast
      rwa [getLastD_append_cons l1 y (c :: l2') s, List.getLastD_cons] at hl
    have holdp : H.prv s = l2'.getLastD c := by
      have hl := R.prvHead
      rwa [getLastD_append_cons l1 y (c :: l2') s, List.getLastD_cons] at hl
    have hync : y ≠ c := fun h => (List.nodup_cons.mp hndr).1 (h ▸ List.mem_cons_self c l2')
    have hsnc : s ≠ c := fun h => hdisj (List.mem_cons_self s l1) (h ▸ hcmem)
    refine ⟨hnodup', ?_, ?_, ?_, ?_⟩
    · show nxtChain (list_add H x y) (s :: (l1 ++ y :: x :: c :: l2'))
      simp only [nxtChain]
      rw [← List.cons_append, List.chain'_append]
      refine ⟨?_, ?_, ?_⟩
      · refine nxtChain_congr (fun a ha => ?_) hnx1
        have hamem : a ∈ s :: l1 := (List.dropLast_sublist (s :: l1)).subset ha
        have h1 : a ≠ y := fun h => hynl1 (h ▸ hamem)
        have h2 : a ≠ x := hxne1 a hamem
        rw [hGnxt a, if_neg h1, if_neg h2]
      · rw [List.chain'_cons, List.chain'_cons]
        refine ⟨by rw [hGnxt y, if_pos rfl], ?_, ?_⟩
        · rw [hGnxt x, if_neg hxny, if_pos rfl, hq]
        · refine nxtChain_congr (fun a ha => ?_) hnx2'
          have hamem : a ∈ y :: c :: l2' :=
            List.mem_cons_of_mem y ((List.dropLast_sublist (c :: l2')).subset ha)
          have h1 : a ≠ y := fun h => (List.nodup_cons.mp hndr).1 (by
            rw [← h]
            exact (List.dropLast_sublist (c :: l2')).subset ha)
          have h2 : a ≠ x := hxne2 a hamem
          rw [hGnxt a, if_neg h1, if_neg h2]
      · intro a ha z hz
        rw [hgl] at ha
        simp only [Option.mem_some_iff] at ha
        simp only [List.head?_cons, Option.mem_some_iff] at hz
        have h1 : l1.getLastD s ≠ y := fun h => hynl1 (h ▸ hpmem)
        have h2 : l1.getLastD s ≠ x := hxne1 _ hpmem
        rw [← ha, ← hz, hGnxt, if_neg h1, if_neg h2, hjy]
    · show prvChain (list_add H x y) (s :: (l1 ++ y :: x :: c :: l2'))
      simp only [prvChain]
      rw [← List.cons_append, List.chain'_append]
      refine ⟨?_, ?_, ?_⟩
      · refine prvChain_congr (fun b hb => ?_) hpv1
        have hbmem : b ∈ s :: l1 := List.mem_cons_of_mem s hb
        have h1 : b ≠ x := hxne1 b hbmem
        have h2 : b ≠ c := fun h => hdisj hbmem (h ▸ hcmem)
        rw [hGprv b, if_neg h1, hq, if_neg h2]
      · rw [List.chain'_cons, List.chain'_cons]
        have hcnx : c ≠ x := hxne2 c hcmem
        refine ⟨by rw [hGprv x, if_pos rfl], ?_, ?_⟩
        · rw [hGprv c, if_neg hcnx, hq, if_pos rfl]
        · refine prvChain_congr (fun b hb => ?_) hpv2'
          have hbmem : b ∈ y :: c :: l2' :=
            List.mem_cons_of_mem y (List.mem_cons_of_mem c hb)
          have h1 : b ≠ x := hxne2 b hbmem
          have h2 : b ≠ c := fun h =>
            (List.nodup_cons.mp (List.nodup_cons.mp hndr).2).1 (h ▸ hb)
          rw [hGprv b, if_neg h1, hq, if_neg h2]
      · intro a ha z hz
        rw [hgl] at ha
        simp only [Option.mem_some_iff] at ha
        simp only [List.head?_cons, Option.mem_some_iff] at hz
        have h1 : y ≠ x := hxny.symm
        have h2 : y ≠ c := hync
        rw [← ha, ← hz, hGprv y, if_neg h1, hq, if_neg h2, hjp]
    · show (list_add H x y).nxt ((l1 ++ y :: x :: c :: l2').getLastD s) = s
      rw [getLastD_append_cons l1 y (x :: c :: l2') s, List.getLastD_cons,
        List.getLastD_cons]
      have h1 : l2'.getLastD c ≠ y := fun h => (List.nodup_cons.mp hndr).1 (by
        rw [← h]; exact getLastD_mem_cons l2' c)
      have h2 : l2'.getLastD c ≠ x := hxne2 _ hy0mem
      rw [hGnxt, if_neg h1, if_neg h2, hold]
    · show (list_add H x y).prv s = (l1 ++ y :: x :: c :: l2').getLastD s
      rw [getLastD_append_cons l1 y (x :: c :: l2') s, List.getLastD_cons,
        List.getLastD_cons, hGprv s, if_neg hxns.symm, hq, if_neg hsnc, holdp]

/-- A ring member in the middle of the traversal is absent from, and its
removal preserves duplicate-freedom of, the rest. -/
theorem nodup_mid_extract {s x : Nat} {l1 l2 : List Nat}
    (h : (s :: (l1 ++ x :: l2)).Nodup) :
    x ∉ s :: (l1 ++ l2) ∧ (s :: (l1 ++ l2)).Nodup := by
  have h1 : s :: (l1 ++ x :: l2) = (s :: l1) ++ x :: l2 := by simp
  have h2 : (s :: l1) ++ l2 = s :: (l1 ++ l2) := by simp
  have hperm : List.Perm (s :: (l1 ++ x :: l2)) (x :: (s :: (l1 ++ l2))) := by
    rw [h1, ← h2]
    exact List.perm_middle
  have hn := hperm.nodup_iff.mp h
  exact ⟨(List.nodup_cons.mp hn).1, (List.nodup_cons.mp hn).2⟩

/-- Every node of a well-formed ring satisfies the claimed per-node
invariant `node.next.prev == node && node.prev.next == node`. -/
theorem IsRing.nodeInv_mem {H : Heap} {s : Nat} {xs : List Nat}
    (R : IsRing H s xs) : ∀ x ∈ s :: xs, nodeInv H x := by
  intro x hx
  have hne : s :: xs ≠ [] := by simp
  have hlast : (s :: xs).getLast hne = xs.getLastD s := getLast_cons_getLastD s xs
  have hnxtg := List.chain'_iff_get.mp R.nxtC
  have hprvg := List.chain'_iff_get.mp R.prvC
  obtain ⟨⟨i, hi⟩, hix⟩ := List.mem_iff_get.mp hx
  constructor
  · by_cases hilt : i < (s :: xs).length - 1
    · have hsucc : i + 1 < (s :: xs).length := by omega
      have e1 : H.nxt x = (s :: xs).get ⟨i + 1, hsucc⟩ := by
        rw [← hix]
        exact hnxtg i hilt
      have e2 : H.prv ((s :: xs).get ⟨i + 1, hsucc⟩) = x := by
        rw [← hix]
        exact hprvg i hilt
      rw [e1]
      exact e2
    · have hieq : i = (s :: xs).length - 1 := by omega
      have hxlast : x = xs.getLastD s := by
        rw [← hix, ← hlast, List.getLast_eq_get]
        subst hieq
        rfl
      rw [hxlast, R.nxtLast, R.prvHead]
  · by_cases hiz : 0 < i
    · have hilt2 : i - 1 < (s :: xs).length - 1 := by omega
      have hidx : i - 1 < (s :: xs).length := by omega
      have e2 : H.prv x = (s :: xs).get ⟨i - 1, hidx⟩ := by
        rw [← hix]
        have h := hprvg (i - 1) hilt2
        simp only [(by omega : i - 1 + 1 = i)] at h
        exact h
      have e1 : H.nxt ((s :: xs).get ⟨i - 1, hidx⟩) = x := by
        rw [← hix]
        have h := hnxtg (i - 1) hilt2
        simp only [(by omega : i - 1 + 1 = i)] at h
        exact h
      rw [e2]
      exact e1
    · have hieq : i = 0 := by omega
      have hxs : x = s := by
        rw [← hix]
        subst hieq
        rfl
      rw [hxs, R.prvHead, R.nxtLast]

/-- Transfer a ring between heaps that agree on the fields of every ring
node. -/
theorem ring_agree {H G : Heap} {s : Nat} {xs : List Nat} (R : IsRing H s xs)
    (hag : ∀ a ∈ s :: xs, G.nxt a = H.nxt a ∧ G.prv a = H.prv a) :
    IsRing G s xs := by
  have hlmem : xs.getLastD s ∈ s :: xs := getLastD_mem_cons xs s
  refine ⟨R.nodup, ?_, ?_, ?_, ?_⟩
  · refine nxtChain_congr (fun a ha => ?_) R.nxtC
    exact (hag a ((List.dropLast_sublist (s :: xs)).subset ha)).1
  · refine prvChain_congr (fun b hb => ?_) R.prvC
    exact (hag b (List.mem_cons_of_mem s hb)).2
  · rw [(hag _ hlmem).1, R.nxtLast]
  · rw [(hag s (List.mem_cons_self s xs)).2, R.prvHead]

/-- Unlinking with `list_del_init` (unlink plus self-re-initialisation of the
removed node) also leaves a ring on the remaining nodes. -/
theorem ring_del_init {H : Heap} {s x : Nat} {l1 l2 : List Nat}
    (R : IsRing H s (l1 ++ x :: l2)) : IsRing (list_del_init H x) s (l1 ++ l2) := by
  have hres := ring_del R
  have hxnot := (nodup_mid_extract R.nodup).1
  refine ring_agree hres (fun a ha => ?_)
  have hax : a ≠ x := fun h => hxnot (h ▸ ha)
  constructor
  · show (if a = x then x else (list_del H x).nxt a) = _
    rw [if_neg hax]
  · show (if a = x then x else (list_del H x).prv a) = _
    rw [if_neg hax]

/-! ### Pointer-level operations of queue.c -/

/-- The loop of `q_reverse` (queue.c:269-272) at pointer level: the nodes of
the original traversal are visited in order (the safe cursor is saved before
each move) and each is re-spliced immediately after the sentinel via
`list_move`. -/
def q_reverse (H : Heap) (s : Nat) : List Nat → Heap
  | [] => H
  | x :: rest => q_reverse (list_move H x s) s rest

/-- The loop of `q_swap` (queue.c:249-254) at pointer level: while at least
two unprocessed nodes remain, the first is unlinked (`list_del_init`) and
re-spliced after the second (`list_add(node, next_node)`); the cursor
resumes after the pair. -/
def q_swap (H : Heap) (s : Nat) : List Nat → Heap
  | a :: b :: rest => q_swap (list_add (list_del_init H a) a b) s rest
  | _ => H

/-- The net effect of the merge phase of `q_sort` on the `next` fields
(queue.c:323-324 and the chain assembly in `mergeTwoLists`): after
`head->prev->next = NULL; head->next = mergesort(head->next)` the `next`
fields follow `s :: ys`, `ys` the sorted output order; the terminating NULL
is modelled by the walk simply ending after `ys`. -/
def setChainNxt (H : Heap) (cur : Nat) : List Nat → Heap
  | [] => H
  | n :: rest => setChainNxt (H.setNxt cur n) n rest

/-- The rebuild loop of `q_sort` (queue.c:326-333): walk the chain, reading
each successor from the heap and fixing its `prev`
(`(*ptr)->next->prev = *ptr`); at the NULL terminator close the ring
(`(*ptr)->next = head; head->prev = *ptr`).  The list argument is the fuel
measuring the remaining chain. -/
def sortFix (s : Nat) (H : Heap) (cur : Nat) : List Nat → Heap
  | [] => (H.setNxt cur s).setPrv s cur
  | _ :: rest => sortFix s (H.setPrv (H.nxt cur) cur) (H.nxt cur) rest

/-- The ring-rebuild phase of `q_sort` (queue.c:323-333) for sorted order
`ys`. -/
def q_sort_rebuild (H : Heap) (s : Nat) (ys : List Nat) : Heap :=
  sortFix s (setChainNxt H s ys) s ys

/-- The `q_sort` (queue.c:318-334) at pointer level, on a ring with traversal
order `xs` and node values `val`: the NULL/empty/singular guard leaves the
heap unchanged; otherwise the ring is cut into a chain, `mergesort`
reorders the `next` fields into `Queue.mergesort val xs` order, and the
rebuild loop restores the `prev` fields and closes the ring. -/
def q_sort (H : Heap) (s : Nat) (val : Nat → String) (xs : List Nat) : Heap :=
  match xs with
  | [] => H
  | [_] => H
  | _ => q_sort_rebuild H s (Queue.mergesort val xs)

/-- The `q_remove_head` (queue.c:120-135) at pointer level: `list_empty` is
`H.nxt s = s`; otherwise the first node `H.nxt s` is unlinked with
`list_del_init` and returned. -/
def q_remove_head (H : Heap) (s : Nat) : Option (Heap × Nat) :=
  if H.nxt s = s then none
  else some (list_del_init H (H.nxt s), H.nxt s)

/-- The `q_remove_tail` (queue.c:141-156) at pointer level: unlinks
`list_last_entry`, i.e. `H.prv s`, with `list_del_init`. -/
def q_remove_tail (H : Heap) (s : Nat) : Option (Heap × Nat) :=
  if H.nxt s = s then none
  else some (list_del_init H (H.prv s), H.prv s)

/-- The `q_delete_mid` (queue.c:193-211) at pointer level on a ring with
traversal `xs`: the fast/slow loop (modelled by `Queue.midLoop`, see the
sequence level) lands on the node at index `⌊n/2⌋`, which is unlinked with
`list_del_init` and then released. -/
def q_delete_mid (H : Heap) (s : Nat) (xs : List Nat) : Option (Heap × Nat) :=
  match xs with
  | [] => none
  | a :: rest =>
      some (list_del_init H ((a :: rest).getD (Queue.midLoop (a :: rest) 0) a),
        (a :: rest).getD (Queue.midLoop (a :: rest) 0) a)

/-! ### Ring preservation of the pointer-level operations -/

/-- Loop invariant of `q_reverse`: the processed prefix sits reversed at the
front of the ring. -/
theorem q_reverse_loop {s : Nat} :
    ∀ (rest acc : List Nat) (H : Heap), IsRing H s (acc ++ rest) →
      IsRing (q_reverse H s rest) s (rest.reverse ++ acc)
  | [], acc, H, R => by
      simp only [q_reverse, List.reverse_nil, List.nil_append]
      rw [List.append_nil] at R
      exact R
  | x :: rest', acc, H, R => by
      have hx := (nodup_mid_extract R.nodup).1
      have h1 : IsRing (list_del H x) s (acc ++ rest') := ring_del R
      have h2 : IsRing (list_add (list_del H x) x s) s (x :: (acc ++ rest')) :=
        ring_add_front h1 hx
      have h3 : IsRing (list_move H x s) s ((x :: acc) ++ rest') := by
        rw [List.cons_append]
        exact h2
      have h4 := q_reverse_loop rest' (x :: acc) (list_move H x s) h3
      simp only [q_reverse]
      rw [show (x :: rest').reverse ++ acc = rest'.reverse ++ (x :: acc) by simp]
      exact h4

/-- The `q_reverse` preserves the ring, reversing the traversal. -/
theorem q_reverse_ring {H : Heap} {s : Nat} {xs : List Nat} (R : IsRing H s xs) :
    IsRing (q_reverse H s xs) s xs.reverse := by
  have h := q_reverse_loop xs [] H (by rw [List.nil_append]; exact R)
  rw [List.append_nil] at h
  exact h

/-- Loop invariant of `q_swap`: processed pairs sit swapped before the
unprocessed suffix. -/
theorem q_swap_loop {s : Nat} :
    ∀ (rest acc : List Nat) (H : Heap), IsRing H s (acc ++ rest) →
      IsRing (q_swap H s rest) s (acc ++ Queue.swapPairs rest)
  | [], acc, H, R => by
      simp only [q_swap, Queue.swapPairs]
      exact R
  | [a], acc, H, R => by
      simp only [q_swap, Queue.swapPairs]
      exact R
  | a :: b :: rest', acc, H, R => by
      have h1 : IsRing (list_del_init H a) s (acc ++ b :: rest') := ring_del_init R
      have hx : a ∉ s :: (acc ++ b :: rest') := (nodup_mid_extract R.nodup).1
      have h2 : IsRing (list_add (list_del_init H a) a b) s (acc ++ b :: a :: rest') :=
        ring_add_after h1 hx
      have h3 : IsRing (list_add (list_del_init H a) a b) s ((acc ++ [b, a]) ++ rest') := by
        rw [show (acc ++ [b, a]) ++ rest' = acc ++ b :: a :: rest' by simp]
        exact h2
      have h4 := q_swap_loop rest' (acc ++ [b, a]) (list_add (list_del_init H a) a b) h3
      simp only [q_swap, Queue.swapPairs]
      rw [show acc ++ b :: a :: Queue.swapPairs rest' =
        (acc ++ [b, a]) ++ Queue.swapPairs rest' by simp]
      exact h4

/-- The `q_swap` preserves the ring, swapping adjacent pairs. -/
theorem q_swap_ring {H : Heap} {s : Nat} {xs : List Nat} (R : IsRing H s xs) :
    IsRing (q_swap H s xs) s (Queue.swapPairs xs) := by
  have h := q_swap_loop xs [] H (by rw [List.nil_append]; exact R)
  rw [List.nil_append] at h
  exact h

/-- The `setChainNxt` never touches `prev` fields. -/
theorem setChainNxt_prv :
    ∀ (ys : List Nat) (H : Heap) (cur : Nat), (setChainNxt H cur ys).prv = H.prv
  | [], _, _ => rfl
  | n :: rest, H, cur => by
      show (setChainNxt (H.setNxt cur n) n rest).prv = H.prv
      rw [setChainNxt_prv rest]
      rfl

/-- The `setChainNxt` writes `next` only at the walked nodes. -/
theorem setChainNxt_untouched :
    ∀ (ys : List Nat) (H : Heap) (cur a : Nat), a ∉ cur :: ys →
      (setChainNxt H cur ys).nxt a = H.nxt a
  | [], _, _, _, _ => rfl
  | n :: rest, H, cur, a, ha => by
      show (setChainNxt (H.setNxt cur n) n rest).nxt a = H.nxt a
      have h1 : a ∉ n :: rest := fun h => ha (List.mem_cons_of_mem cur h)
      rw [setChainNxt_untouched rest (H.setNxt cur n) n a h1]
      show (if a = cur then n else H.nxt a) = H.nxt a
      have hne : a ≠ cur := fun h => ha (by rw [h]; exact List.mem_cons_self cur (n :: rest))
      rw [if_neg hne]

/-- After `setChainNxt`, the `next` fields follow the walked chain. -/
theorem setChainNxt_chain :
    ∀ (ys : List Nat) (H : Heap) (cur : Nat), (cur :: ys).Nodup →
      List.Chain' (fun a b => (setChainNxt H cur ys).nxt a = b) (cur :: ys)
  | [], _, cur, _ => List.chain'_singleton cur
  | n :: rest, H, cur, hnd => by
      rw [List.chain'_cons]
      have hcur : cur ∉ n :: rest := (List.nodup_cons.mp hnd).1
      constructor
      · show (setChainNxt (H.setNxt cur n) n rest).nxt cur = n
        rw [setChainNxt_untouched rest (H.setNxt cur n) n cur hcur]
        show (if cur = cur then n else H.nxt cur) = n
        rw [if_pos rfl]
      · exact setChainNxt_chain rest (H.setNxt cur n) n (List.nodup_cons.mp hnd).2

/-- Main invariant of the rebuild loop of `q_sort`: given the full `next`
chain and the already-fixed `prev` prefix, `sortFix` closes a well-formed
ring. -/
theorem sortFix_ring {s : Nat} {ys : List Nat} :
    ∀ (rest done : List Nat) (H : Heap) (cur : Nat),
      s :: ys = done ++ cur :: rest →
      (s :: ys).Nodup →
      List.Chain' (fun a b => H.nxt a = b) (done ++ cur :: rest) →
      List.Chain' (fun a b => H.prv b = a) (done ++ [cur]) →
      IsRing (sortFix s H cur rest) s ys
  | [], done, H, cur, hsplit, hnd, hnxt, hprv => by
      have hnd' : (done ++ [cur]).Nodup := by rw [← hsplit]; exact hnd
      have hlastc : ys.getLastD s = cur := by
        have h1 : (s :: ys).getLast? = some (ys.getLastD s) := getLast?_cons_getLastD s ys
        rw [hsplit, List.getLast?_concat] at h1
        exact (Option.some.inj h1).symm
      have htail : (done ++ [cur]).tail = ys := by
        rw [← hsplit]
        rfl
      have hGnxt : ∀ a, (sortFix s H cur []).nxt a =
          if a = cur then s else H.nxt a := fun a => rfl
      have hGprv : ∀ b, (sortFix s H cur []).prv b =
          if b = s then cur else H.prv b := fun b => rfl
      refine ⟨hnd, ?_, ?_, ?_, ?_⟩
      · show nxtChain (sortFix s H cur []) (s :: ys)
        rw [nxtChain, hsplit]
        refine nxtChain_congr (fun a ha => ?_) hnxt
        rw [List.dropLast_concat] at ha
        have hne : a ≠ cur := fun h => by
          have hdj := List.disjoint_of_nodup_append hnd'
          exact hdj ha (h ▸ List.mem_cons_self cur [])
        rw [hGnxt a, if_neg hne]
      · show prvChain (sortFix s H cur []) (s :: ys)
        rw [prvChain, hsplit]
        refine prvChain_congr (fun b hb => ?_) hprv
        rw [htail] at hb
        have hne : b ≠ s := fun h => (List.nodup_cons.mp hnd).1 (h ▸ hb)
        rw [hGprv b, if_neg hne]
      · rw [hlastc, hGnxt, if_pos rfl]
      · rw [hlastc, hGprv, if_pos rfl]
  | n :: rest', done, H, cur, hsplit, hnd, hnxt, hprv => by
      have hnxt2 : List.Chain' (fun a b => H.nxt a = b) (cur :: n :: rest') :=
        (List.chain'_append.mp hnxt).2.1
      have hq : H.nxt cur = n := (List.chain'_cons.mp hnxt2).1
      have hnd'' : ((done ++ [cur]) ++ n :: rest').Nodup := by
        rw [show (done ++ [cur]) ++ n :: rest' = done ++ cur :: n :: rest' by simp,
          ← hsplit]
        exact hnd
      have hdj := List.disjoint_of_nodup_append hnd''
      have hsplit' : s :: ys = (done ++ [cur]) ++ n :: rest' := by
        rw [hsplit]; simp
      have hnxt' : List.Chain' (fun a b => (H.setPrv n cur).nxt a = b)
          ((done ++ [cur]) ++ n :: rest') := by
        rw [show (done ++ [cur]) ++ n :: rest' = done ++ cur :: n :: rest' by simp]
        exact hnxt
      have hprv' : List.Chain' (fun a b => (H.setPrv n cur).prv b = a)
          ((done ++ [cur]) ++ [n]) := by
        rw [List.chain'_append]
        refine ⟨?_, List.chain'_singleton n, ?_⟩
        · refine prvChain_congr (fun b hb => ?_) hprv
          have hbmem : b ∈ done ++ [cur] := (List.tail_sublist _).subset hb
          have hbn : b ≠ n := fun h =>
            hdj hbmem (h ▸ List.mem_cons_self n rest')
          show (if b = n then cur else H.prv b) = H.prv b
          rw [if_neg hbn]
        · intro a ha y hy
          rw [List.getLast?_concat] at ha
          simp only [Option.mem_some_iff] at ha
          simp only [List.head?_cons, Option.mem_some_iff] at hy
          rw [← ha, ← hy]
          show (if n = n then cur else H.prv n) = cur
          rw [if_pos rfl]
      have h4 := sortFix_ring rest' (done ++ [cur]) (H.setPrv n cur) n
        hsplit' hnd hnxt' hprv'
      show IsRing (sortFix s (H.setPrv (H.nxt cur) cur) (H.nxt cur) rest') s ys
      rw [hq]
      exact h4

/-- The rebuild phase of `q_sort` produces a well-formed ring over any
duplicate-free chain, whatever the stale `prev` fields were. -/
theorem q_sort_rebuild_ring (H : Heap) {s : Nat} {ys : List Nat}
    (hnd : (s :: ys).Nodup) : IsRing (q_sort_rebuild H s ys) s ys := by
  refine sortFix_ring ys [] (setChainNxt H s ys) s rfl hnd ?_ ?_
  · exact setChainNxt_chain ys H s hnd
  · exact List.chain'_singleton s

/-- The `q_sort` preserves the ring, reordering the traversal into mergesort
order. -/
theorem q_sort_ring {H : Heap} {s : Nat} {xs : List Nat} (val : Nat → String)
    (R : IsRing H s xs) : IsRing (q_sort H s val xs) s (Queue.mergesort val xs) := by
  match xs with
  | [] => exact R
  | [x] => exact R
  | a :: b :: t =>
    have hperm : List.Perm (Queue.mergesort val (a :: b :: t)) (a :: b :: t) :=
      Queue.mergesortF_perm val (a :: b :: t).length (a :: b :: t) le_rfl
    have hnd : (s :: Queue.mergesort val (a :: b :: t)).Nodup :=
      ((hperm.cons s).nodup_iff).mpr R.nodup
    exact q_sort_rebuild_ring H hnd

/-! ### Claim theorems (pointer level) -/

/-- C4: the operations preserve the ring invariant — after `q_reverse`,
`q_swap` and `q_sort` return, every node still in the ring (sentinel
included) satisfies `node.next.prev == node && node.prev.next == node`, and
on an empty queue each leaves the sentinel self-linked. -/
theorem ring_invariant_preserved :
    ∀ (H : Heap) (s : Nat) (xs : List Nat) (val : Nat → String), IsRing H s xs →
      (∀ x ∈ s :: xs.reverse, nodeInv (q_reverse H s xs) x) ∧
      (∀ x ∈ s :: Queue.swapPairs xs, nodeInv (q_swap H s xs) x) ∧
      (∀ x ∈ s :: Queue.mergesort val xs, nodeInv (q_sort H s val xs) x) ∧
      (xs = [] →
        ((q_reverse H s xs).nxt s = s ∧ (q_reverse H s xs).prv s = s) ∧
        ((q_swap H s xs).nxt s = s ∧ (q_swap H s xs).prv s = s) ∧
        ((q_sort H s val xs).nxt s = s ∧ (q_sort H s val xs).prv s = s)) := by
  intro H s xs val R
  refine ⟨(q_reverse_ring R).nodeInv_mem, (q_swap_ring R).nodeInv_mem,
    (q_sort_ring val R).nodeInv_mem, ?_⟩
  intro hxs
  subst hxs
  have hn : H.nxt s = s := R.nxtLast
  have hp : H.prv s = s := R.prvHead
  exact ⟨⟨hn, hp⟩, ⟨hn, hp⟩, ⟨hn, hp⟩⟩

/-- A concrete three-node ring (sentinel 0, elements 1 and 2), for the
witnesses. -/
def exampleHeap : Heap :=
  ⟨fun a => if a = 0 then 1 else if a = 1 then 2 else if a = 2 then 0 else a,
    fun a => if a = 0 then 2 else if a = 1 then 0 else if a = 2 then 1 else a⟩

/-- Concrete node values for the witnesses (node 1 holds "b", node 2 holds
"a", so sorting swaps them). -/
def exampleVal : Nat → String := fun n => if n = 1 then "b" else "a"

/-- The concrete heap is a well-formed ring. -/
theorem exampleHeap_ring : IsRing exampleHeap 0 [1, 2] :=
  ⟨by decide,
    by
      unfold nxtChain
      rw [List.chain'_cons, List.chain'_cons]
      exact ⟨by decide, by decide, List.chain'_singleton 2⟩,
    by
      unfold prvChain
      rw [List.chain'_cons, List.chain'_cons]
      exact ⟨by decide, by decide, List.chain'_singleton 2⟩,
    by decide, by decide⟩

/-- C4 witness: the preservation theorem applied to the concrete ring. -/
theorem ring_invariant_preserved_witness :
    IsRing exampleHeap 0 [1, 2] ∧
      (∀ x ∈ (0 : Nat) :: [1, 2].reverse, nodeInv (q_reverse exampleHeap 0 [1, 2]) x) ∧
      (∀ x ∈ (0 : Nat) :: Queue.swapPairs [1, 2],
        nodeInv (q_swap exampleHeap 0 [1, 2]) x) ∧
      (∀ x ∈ (0 : Nat) :: Queue.mergesort exampleVal [1, 2],
        nodeInv (q_sort exampleHeap 0 exampleVal [1, 2]) x) :=
  ⟨exampleHeap_ring,
    (ring_invariant_preserved exampleHeap 0 [1, 2] exampleVal exampleHeap_ring).1,
    (ring_invariant_preserved exampleHeap 0 [1, 2] exampleVal exampleHeap_ring).2.1,
    (ring_invariant_preserved exampleHeap 0 [1, 2] exampleVal exampleHeap_ring).2.2.1⟩

/-- C9: every element unlinked by `q_remove_head`, `q_remove_tail` or
`q_delete_mid` is left with its link node self-referential
(`next == prev == itself`, the `list_del_init` state), not the unspecified
state the spec permits for a bare unlink; in particular the element returned
by a remove operation always has a self-linked node. -/
theorem removed_node_self_linked :
    ∀ (H : Heap) (s a : Nat) (rest : List Nat),
      (H.nxt s ≠ s → ∃ G n, q_remove_head H s = some (G, n) ∧
        G.nxt n = n ∧ G.prv n = n) ∧
      (H.nxt s ≠ s → ∃ G n, q_remove_tail H s = some (G, n) ∧
        G.nxt n = n ∧ G.prv n = n) ∧
      (∃ G n, q_delete_mid H s (a :: rest) = some (G, n) ∧
        G.nxt n = n ∧ G.prv n = n) ∧
      q_delete_mid H s [] = none := by
  intro H s a rest
  have hself : ∀ (K : Heap) (m : Nat),
      (list_del_init K m).nxt m = m ∧ (list_del_init K m).prv m = m := by
    intro K m
    constructor
    · show (if m = m then m else (list_del K m).nxt m) = m
      rw [if_pos rfl]
    · show (if m = m then m else (list_del K m).prv m) = m
      rw [if_pos rfl]
  refine ⟨?_, ?_, ?_, rfl⟩
  · intro h
    refine ⟨list_del_init H (H.nxt s), H.nxt s, ?_, (hself H _).1, (hself H _).2⟩
    simp only [q_remove_head, if_neg h]
  · intro h
    refine ⟨list_del_init H (H.prv s), H.prv s, ?_, (hself H _).1, (hself H _).2⟩
    simp only [q_remove_tail, if_neg h]
  · exact ⟨_, _, rfl, (hself H _).1, (hself H _).2⟩

/-- C9 witness: removal from the concrete ring leaves the removed node
self-linked. -/
theorem removed_node_self_linked_witness :
    exampleHeap.nxt 0 ≠ 0 ∧
      (∃ G n, q_remove_head exampleHeap 0 = some (G, n) ∧
        G.nxt n = n ∧ G.prv n = n) :=
  ⟨by decide, (removed_node_self_linked exampleHeap 0 1 []).1 (by decide)⟩

end Ring
